import Mathlib

/-!
Shallow embedding of `sparse.py`, a coordinate-format (COO) sparse matrix
class built on numpy, together with proofs checking the repository's
specification against the code.

Modelling conventions:
* numpy 1-D arrays are Lean `List`s; stored values are `Int`, coordinates
  are `Nat`.
* Fallible numpy operations (out-of-bounds indexing, `np.max` of an empty
  array, failed `assert` statements, `ValueError`) are modelled with
  `Except PyError`.
* `np.searchsorted` (left side) on a sorted array returns the left
  insertion point, i.e. the number of elements strictly below the probe;
  the definition below uses that characterisation directly.  Every call
  site in the source passes a sorted first argument.
* `np.unique`, `np.intersect1d`, `np.setdiff1d`, `np.union1d` all return
  sorted duplicate-free arrays; they are modelled by a sorted-dedup
  `unique` composed with filtering/append, which matches numpy on all
  inputs.
* `np.argsort` followed by fancy indexing with the resulting permutation
  sorts the parallel arrays by id.  Ids produced by distinct in-range
  coordinates are distinct, so any comparison sort yields the same result;
  the model uses an insertion sort keyed on the id.
* The source file is written in Python-2 style (an `xrange` shim at the
  top); `ids / n_column` in `_id_to_ij` is integer floor division there,
  modelled with `Nat` division.
* `.25` offsets in `fast_in1d` are exactly representable in floating
  point, and adding them to integers of moderate magnitude is exact, so
  the float arithmetic is modelled with `Rat`.
-/

namespace SparseSpec

/-- Errors surfaced by the modelled numpy/Python operations. -/
inductive PyError where
  /-- `ValueError` raised by `_normalize_indices`: index `offending` too
  large for axis with length `axisLen`; `offending` is
  `np.min(x[x >= xmax])`. -/
  | bounds (offending axisLen : Nat)
  /-- `ValueError` raised by `np.max` / `np.min` on an empty array. -/
  | emptyMax
  /-- A failed `assert` statement. -/
  | assertFail
  /-- numpy `IndexError`: index out of bounds. -/
  | indexError
deriving DecidableEq, Repr

/-- The COO matrix: parallel arrays of values and coordinates plus the
shape, mirroring the fields `data`, `row`, `column`, `n_row`, `n_column`
of `class Sparse`. -/
structure Sparse where
  data : List Int
  row : List Nat
  column : List Nat
  n_row : Nat
  n_column : Nat
deriving DecidableEq, Repr

/-- `_ij_to_id`: linearised coordinate `i * n_column + j`. -/
def ijToId (n_column : Nat) (i j : Nat) : Nat := i * n_column + j

/-- The derived id array `self.ids = self._ij_to_id (row, column)`. -/
def Sparse.ids (s : Sparse) : List Nat :=
  List.zipWith (fun r c => ijToId s.n_column r c) s.row s.column

/-- `_id_to_ij`: recover `(row, column)` from linear ids by floor
division and remainder by `n_column`. -/
def idToIj (n_column : Nat) (ids : List Nat) : List Nat × List Nat :=
  (ids.map (fun x => x / n_column), ids.map (fun x => x % n_column))

/-- `np.searchsorted (xs, v)` with the default left side, assuming `xs`
sorted: the number of elements of `xs` strictly less than `v`. -/
def searchsorted {α : Type} [LT α] [DecidableRel (fun a b : α => a < b)]
    (xs : List α) (v : α) : Nat :=
  xs.countP (fun x => decide (x < v))

/-- Indexing `l[i]` with a non-negative index; numpy raises `IndexError`
out of bounds. -/
def npGet {α : Type} (l : List α) (i : Nat) : Except PyError α :=
  match l.get? i with
  | some v => .ok v
  | none => .error .indexError

/-- Fancy indexing `l[idx]` with an array of non-negative indices. -/
def gather {α : Type} (l : List α) (idx : List Nat) : Except PyError (List α) :=
  idx.mapM (npGet l)

/-- Indexing `l[i]` with a possibly negative index: numpy wraps negative
indices by the length and raises `IndexError` outside `[-len, len)`. -/
def npGetI {α : Type} (l : List α) (i : Int) : Except PyError α :=
  let j : Int := if i < 0 then i + (l.length : Int) else i
  if 0 ≤ j then npGet l j.toNat else .error .indexError

/-- Fancy indexing with an array of possibly negative indices. -/
def gatherI {α : Type} (l : List α) (idx : List Int) : Except PyError (List α) :=
  idx.mapM (npGetI l)

/-- Single fancy-assignment store `l[i] = v`. -/
def npSet {α : Type} (l : List α) (i : Nat) (v : α) : Except PyError (List α) :=
  if i < l.length then .ok (l.set i v) else .error .indexError

/-- Fancy assignment `l[idx] = vals` (equal lengths at every call site;
with repeated indices the last store wins, as in numpy). -/
def scatter {α : Type} (l : List α) (idx : List Nat) (vals : List α) :
    Except PyError (List α) :=
  if idx.length = vals.length then
    (idx.zip vals).foldlM (fun acc p => npSet acc p.1 p.2) l
  else .error .indexError

/-- Insert into a sorted duplicate-free list, keeping it sorted and
duplicate-free. -/
def insertUnique (x : Nat) : List Nat → List Nat
  | [] => [x]
  | y :: ys =>
    if x < y then x :: y :: ys
    else if x = y then y :: ys
    else y :: insertUnique x ys

/-- `np.unique`: the sorted duplicate-free list of values occurring in
`l`. -/
def unique (l : List Nat) : List Nat := l.foldr insertUnique []

/-- `np.intersect1d`: sorted unique values common to both arrays. -/
def intersect1d (a b : List Nat) : List Nat :=
  unique (a.filter (fun x => decide (x ∈ b)))

/-- `np.setdiff1d`: sorted unique values of `a` not in `b`. -/
def setdiff1d (a b : List Nat) : List Nat :=
  unique (a.filter (fun x => decide (x ∉ b)))

/-- `np.union1d`: sorted unique values occurring in either array. -/
def union1d (a b : List Nat) : List Nat := unique (a ++ b)

/-- `np.cumsum`: inclusive prefix sums. -/
def cumsumList : List Int → List Int
  | [] => []
  | x :: xs => x :: (cumsumList xs).map (fun y => x + y)

/-- `np.diff`: successive differences `l[k+1] - l[k]`. -/
def diffList (l : List Int) : List Int :=
  List.zipWith (fun a b => b - a) l l.tail

/-- `np.max` of the nonempty array `x :: l`. -/
def npMax1 (x : Nat) : List Nat → Nat
  | [] => x
  | y :: ys => Nat.max x (npMax1 y ys)

/-- `np.min` of the nonempty array `x :: l`. -/
def npMin1 (x : Nat) : List Nat → Nat
  | [] => x
  | y :: ys => Nat.min x (npMin1 y ys)

/-- One row of the parallel triplet `(data, row, column)`. -/
structure Entry where
  data : Int
  row : Nat
  column : Nat
deriving DecidableEq, Repr

/-- Zip the three parallel arrays into entries (the arrays have equal
length at every call site). -/
def zipEntries : List Int → List Nat → List Nat → List Entry
  | d :: ds, r :: rs, c :: cs => ⟨d, r, c⟩ :: zipEntries ds rs cs
  | _, _, _ => []

/-- Stable insertion sort by the key `k`; models
`order = np.argsort(ids)` followed by reindexing the parallel arrays.
All ids are distinct under the class invariant, so any comparison sort
produces this result. -/
def sortByKey {α : Type} (k : α → Nat) (l : List α) : List α :=
  List.insertionSort (fun a b => k a ≤ k b) l

/-- The id key of an entry under a given column count. -/
def entryId (n_column : Nat) (e : Entry) : Nat := ijToId n_column e.row e.column

/-- `Sparse.__init__` with `_check=True`: compute ids and sort the three
parallel arrays by id. -/
def Sparse.init (data : List Int) (row column : List Nat)
    (n_row n_column : Nat) : Sparse :=
  let entries := sortByKey (entryId n_column) (zipEntries data row column)
  ⟨entries.map Entry.data, entries.map Entry.row, entries.map Entry.column,
    n_row, n_column⟩

/-- `Sparse.broadcast2d (a, b, f, afill, bfill)`.  Asserts equal shapes
and that the two fill functions are supplied both-or-neither; takes the
entrywise fast path when the id arrays coincide; otherwise merges by id
with intersection semantics (no fills) or union semantics (both fills).
The union branch reproduces the source verbatim, including its two
stores `data[i1_out] = afill(a.data[i1_in])` and
`data[i2_out] = afill(a.data[i2_in])` (`np.empty` is modelled as a zero
list; every position is overwritten before being read). -/
def Sparse.broadcast2d (a b : Sparse) (f : Int → Int → Int)
    (afill bfill : Option (Int → Int)) : Except PyError Sparse :=
  if ¬ (a.n_row = b.n_row ∧ a.n_column = b.n_column) then .error .assertFail
  else if ((if afill.isNone then 1 else 0) + (if bfill.isNone then 1 else 0)) % 2 ≠ 0
    then .error .assertFail
  else if a.data.length = b.data.length ∧ a.ids = b.ids then
    .ok (Sparse.init (List.zipWith f a.data b.data) a.row a.column
      a.n_row a.n_column)
  else do
    let both_ids := intersect1d a.ids b.ids
    let a_ids := intersect1d a.ids both_ids
    let b_ids := intersect1d b.ids both_ids
    let i1 := a_ids.map (searchsorted both_ids)
    let i2 := b_ids.map (searchsorted both_ids)
    let da ← gather a.data i1
    let db ← gather b.data i2
    let data := List.zipWith f da db
    match afill with
    | none =>
      let rc := idToIj a.n_column both_ids
      pure (Sparse.init data rc.1 rc.2 a.n_row a.n_column)
    | some fa =>
      let only_a_ids := setdiff1d a.ids both_ids
      let only_b_ids := setdiff1d b.ids both_ids
      let all_ids := union1d a.ids b.ids
      let orig_data := data
      let data0 : List Int := List.replicate all_ids.length 0
      let i_both := both_ids.map (searchsorted all_ids)
      let i1_in := only_a_ids.map (searchsorted a.ids)
      let i2_in := only_b_ids.map (searchsorted b.ids)
      let i1_out := only_a_ids.map (searchsorted all_ids)
      let i2_out := only_b_ids.map (searchsorted all_ids)
      let d1 ← scatter data0 i_both orig_data
      let ga ← gather a.data i1_in
      let d2 ← scatter d1 i1_out (ga.map fa)
      let gb ← gather a.data i2_in
      let d3 ← scatter d2 i2_out (gb.map fa)
      let rc := idToIj a.n_column all_ids
      pure (Sparse.init d3 rc.1 rc.2 a.n_row a.n_column)

/-- `Sparse.add`: union-mode broadcast with identity fills. -/
def Sparse.add (a b : Sparse) : Except PyError Sparse :=
  Sparse.broadcast2d a b (· + ·) (some (fun x => x)) (some (fun x => x))

/-- `Sparse.subtract`: union-mode broadcast, `afill` identity, `bfill`
negation. -/
def Sparse.subtract (a b : Sparse) : Except PyError Sparse :=
  Sparse.broadcast2d a b (· - ·) (some (fun x => x)) (some (fun x => -x))

/-- `Sparse.multiply`: intersection-mode broadcast. -/
def Sparse.multiply (a b : Sparse) : Except PyError Sparse :=
  Sparse.broadcast2d a b (· * ·) none none

/-- `np.where(np.diff(row) >= 1)[0]`: the positions just before a row
change. -/
def wherePosGE1 (l : List Int) : List Nat :=
  (l.enum.filter (fun p => decide (1 ≤ p.2))).map Prod.fst

/-- The shared prefix of `dot_py` / `dot_sparse`: the per-entry products
`data * v[column]`, the row boundary index array
`np.r_[0, np.where(np.diff(row) >= 1)[0], data.size - 1]` (an integer
array: the last element is `-1` for an empty matrix), the clobbered
prefix-sum array `np.r_[0, np.cumsum(product)[1:]]`, and the resulting
per-row values and row labels. -/
def dotCore (s : Sparse) (v : List Int) :
    Except PyError (List Int × List Nat) := do
  let gathered ← gather v s.column
  let product := List.zipWith (· * ·) s.data gathered
  let drow := List.zipWith (fun a b => (b : Int) - (a : Int)) s.row s.row.tail
  let row_bounds : List Int :=
    0 :: (wherePosGE1 drow).map Int.ofNat ++ [(s.data.length : Int) - 1]
  let cumsum : List Int := 0 :: (cumsumList product).drop 1
  let picked ← gatherI cumsum row_bounds
  let vals := diffList picked
  let rowIdx ← gatherI s.row (row_bounds.drop 1)
  pure (vals, rowIdx)

/-- `Sparse.dot_py`: dense-result segmented-sum dot product. -/
def Sparse.dot_py (s : Sparse) (v : List Int) : Except PyError (List Int) := do
  if v.length ≠ s.n_column then throw .assertFail
  let core ← dotCore s v
  scatter (List.replicate s.n_row 0) core.2 core.1

/-- `Sparse.dot_sparse`: sparse-result segmented-sum dot product,
returning a one-column matrix of shape `(n_row, 1)`. -/
def Sparse.dot_sparse (s : Sparse) (v : List Int) : Except PyError Sparse := do
  if v.length ≠ s.n_column then throw .assertFail
  let core ← dotCore s v
  pure (Sparse.init core.1 core.2 (List.replicate core.1.length 0) s.n_row 1)

/-- `Sparse._normalize_indices` on an integer index array: raise a
bounds `ValueError` naming `np.min(x[x >= xmax])` and `xmax` when the
check `np.max(x) < xmax` fails.  `np.max` (and `np.min`) raise on an
empty array, giving the `emptyMax` cases. -/
def normalize_indices (x : List Nat) (xmax : Nat) : Except PyError (List Nat) :=
  match x with
  | [] => .error .emptyMax
  | a :: l =>
    if npMax1 a l < xmax then .ok (a :: l)
    else
      match (a :: l).filter (fun v => decide (xmax ≤ v)) with
      | [] => .error .emptyMax
      | b :: bs => .error (.bounds (npMin1 b bs) xmax)

/-- `np.in1d`: elementwise membership of `l` in `bins`. -/
def in1d (l : List Nat) (bins : List Nat) : List Bool :=
  l.map (fun x => decide (x ∈ bins))

/-- Boolean-mask indexing `l[mask]` over parallel arrays of equal
length. -/
def maskFilter {α : Type} (l : List α) (mask : List Bool) : List α :=
  ((l.zip mask).filter (fun p => p.2)).map Prod.fst

/-- `np.all(np.diff(l) > 0)`: every adjacent pair strictly increases. -/
def allDiffPos : List Nat → Bool
  | [] => true
  | [_] => true
  | x :: y :: rest => decide (x < y) && allDiffPos (y :: rest)

/-- `Sparse._get_columns`: normalize `j` and assert it strictly
ascending (`assert np.all(np.diff(j) > 0)` — the `else` branch is the
failed assert); keep the stored entries whose column (`ids % n_column`)
is in `j`, remap the kept columns onto the compacted axis
`relevant_columns`, and build the result with shape
`(len(j), n_column)`. -/
def Sparse.get_columns (s : Sparse) (j0 : List Nat) : Except PyError Sparse := do
  let j ← normalize_indices j0 s.n_column
  if allDiffPos j then
    let mask := in1d (s.ids.map (fun x => x % s.n_column)) j
    let data := maskFilter s.data mask
    let row := maskFilter s.row mask
    let self_col_idx := maskFilter s.column mask
    let relevant_columns :=
      unique (self_col_idx ++ j.filter (fun c => decide (c ∉ self_col_idx)))
    let column := self_col_idx.map (searchsorted relevant_columns)
    pure (Sparse.init data row column j.length s.n_column)
  else throw .assertFail

/-- `Sparse._get_elements`: paired-coordinate lookup.  The query ids
`i * n_column + j` are intersected with the stored ids; values are read
at the positions of the surviving ids in the sorted id array, and the
result keeps the original shape. -/
def Sparse.get_elements (s : Sparse) (i j : List Nat) : Except PyError Sparse := do
  let i ← normalize_indices i s.n_row
  let j ← normalize_indices j s.n_column
  let ids := intersect1d (List.zipWith (ijToId s.n_column) i j) s.ids
  let idx := ids.map (searchsorted s.ids)
  let data ← gather s.data idx
  let rc := idToIj s.n_column ids
  pure (Sparse.init data rc.1 rc.2 s.n_row s.n_column)

/-- `Sparse.fast_in1d (a_test, a_bins)`: interleave the bins into
`bin - .25, bin + .25`, binary-search each query into the interleaved
array, and report odd insertion parity. -/
def fast_in1d (a_test : List Int) (a_bins : List Int) : List Bool :=
  a_test.map (fun q : Int =>
    decide (searchsorted
      (a_bins.flatMap fun b => [(b : Rat) - 1/4, (b : Rat) + 1/4])
      (q : Rat) % 2 > 0))

/-! ### Helper lemmas -/

lemma except_bind_ok {ε α β : Type} {x : Except ε α} {f : α → Except ε β} {b : β}
    (h : x >>= f = .ok b) : ∃ a, x = .ok a ∧ f a = .ok b := by
  cases x with
  | ok a => exact ⟨a, rfl, h⟩
  | error e => exact Except.noConfusion h

lemma sortByKey_perm {α : Type} (k : α → Nat) (l : List α) :
    List.Perm (sortByKey k l) l :=
  List.perm_insertionSort _ l

lemma sortByKey_sorted {α : Type} (k : α → Nat) (l : List α) :
    List.Pairwise (fun a b => k a ≤ k b) (sortByKey k l) := by
  haveI : IsTotal α (fun a b => k a ≤ k b) := ⟨fun a b => Nat.le_total (k a) (k b)⟩
  haveI : IsTrans α (fun a b => k a ≤ k b) :=
    ⟨fun _ _ _ hab hbc => Nat.le_trans hab hbc⟩
  exact List.sorted_insertionSort _ l

lemma sortByKey_of_sorted {α : Type} {k : α → Nat} {l : List α}
    (h : List.Pairwise (fun a b => k a ≤ k b) l) : sortByKey k l = l :=
  List.Sorted.insertionSort_eq h

lemma zipWith_map_same {α β γ δ : Type} (f : β → γ → δ) (g : α → β) (h : α → γ)
    (l : List α) :
    List.zipWith f (l.map g) (l.map h) = l.map (fun x => f (g x) (h x)) := by
  induction l with
  | nil => rfl
  | cons x xs ih => simp [ih]

lemma ids_init (d : List Int) (r c : List Nat) (n_row n_col : Nat) :
    (Sparse.init d r c n_row n_col).ids =
      (sortByKey (entryId n_col) (zipEntries d r c)).map (entryId n_col) := by
  unfold Sparse.init Sparse.ids
  simp only
  rw [zipWith_map_same]
  rfl

lemma ijToId_inj {n r1 c1 r2 c2 : Nat} (hc1 : c1 < n) (hc2 : c2 < n)
    (h : ijToId n r1 c1 = ijToId n r2 c2) : r1 = r2 ∧ c1 = c2 := by
  unfold ijToId at h
  have hc : c1 = c2 := by
    have hm := congrArg (· % n) h
    simpa [Nat.mul_add_mod_of_lt hc1, Nat.mul_add_mod_of_lt hc2] using hm
  subst hc
  refine ⟨?_, rfl⟩
  have hr : r1 * n = r2 * n := by omega
  exact Nat.eq_of_mul_eq_mul_right (Nat.pos_of_ne_zero (by omega)) hr

/-! ### Claims -/

/-- C1: the spec says that in union mode (`add`, `subtract`) an id
present only in `b` receives `bfill(b_val)`.  The code instead stores
`afill(a.data[i2_in])`: `bfill` is never applied and the values are read
from `a.data`.  Evaluation at the failing input: `add` of
`a = {(0,0) ↦ 1}` and `b = {(0,1) ↦ 2}` of shape `(1,2)` yields value
`1` at the b-only coordinate `(0,1)`, where the claim requires
`bfill(2) = 2`. -/
theorem C1_union_mode_fill_bug :
    Sparse.add ⟨[1], [0], [0], 1, 2⟩ ⟨[2], [0], [1], 1, 2⟩ =
      .ok ⟨[1, 1], [0, 0], [0, 1], 1, 2⟩ ∧
    (⟨[1, 1], [0, 0], [0, 1], 1, 2⟩ : Sparse) ≠ ⟨[1, 2], [0, 0], [0, 1], 1, 2⟩ :=
  ⟨rfl, by decide⟩

/-- C2: the spec says intersection mode reads each operand's value at
the shared id via binary search into that operand's sorted id array.
The code computes `searchsorted(both_ids, a_ids)` — the arguments
swapped — which is `0, 1, 2, …`, so it multiplies the *first k* stored
values of each operand.  Evaluation at the failing input:
`a = {(1,0) ↦ 10, (1,4) ↦ 20}`, `b = {(1,4) ↦ 7}` of shape `(2,5)`
share only the id of `(1,4)`; the claim requires `20 * 7 = 140` there,
but the code produces `10 * 7 = 70`. -/
theorem C2_intersection_mode_lookup_bug :
    Sparse.multiply ⟨[10, 20], [1, 1], [0, 4], 2, 5⟩ ⟨[7], [1], [4], 2, 5⟩ =
      .ok ⟨[70], [1], [4], 2, 5⟩ ∧
    (⟨[70], [1], [4], 2, 5⟩ : Sparse) ≠ ⟨[140], [1], [4], 2, 5⟩ :=
  ⟨rfl, by decide⟩

/-- C3: the spec says the segmented-sum dot product yields each stored
row's dot product with `v`.  The code builds
`np.r_[0, np.cumsum(product)[1:]]`, which overwrites the first prefix
sum `product[0]` with `0`; whenever the first stored row has exactly one
entry, its contribution is dropped there and leaks into the next row.
Evaluation: for the matrix `{(0,0) ↦ 1, (1,0) ↦ 2}` of shape `(2,1)`
and `v = [1]` the code returns `[0, 3]` where the claim requires
`[1, 2]`; the spec's own example (first row with two entries) does
return `[3, 3]`. -/
theorem C3_dot_first_row_bug :
    Sparse.dot_py ⟨[1, 2], [0, 1], [0, 0], 2, 1⟩ [1] = .ok [0, 3] ∧
    ([0, 3] : List Int) ≠ [1, 2] ∧
    Sparse.dot_py ⟨[1, 2, 3], [0, 0, 1], [0, 1, 1], 2, 2⟩ [1, 1] = .ok [3, 3] :=
  ⟨rfl, by decide, rfl⟩

/-- C4: the spec says a matrix with zero stored entries gives an
all-zero dot-product result of the appropriate shape rather than
failing.  The code's `row_bounds` array ends in `data.size - 1 = -1`,
and `self.row[row_bounds[1:]]` then indexes the empty `row` array at
`-1`, which raises `IndexError`; both variants fail on the empty matrix
of shape `(2,2)` with `v = [1, 1]`. -/
theorem C4_dot_empty_matrix_raises :
    Sparse.dot_py ⟨[], [], [], 2, 2⟩ [1, 1] = .error .indexError ∧
    Sparse.dot_sparse ⟨[], [], [], 2, 2⟩ [1, 1] = .error .indexError :=
  ⟨rfl, rfl⟩

/-- C5: for the matrix with stored entries `(0,0) ↦ 1`, `(1,1) ↦ 2`,
`(2,2) ↦ 3` and the paired-element query `i = [0,1]`, `j = [0,1]`,
`_get_elements` returns exactly the stored entries `(0,0) ↦ 1` and
`(1,1) ↦ 2` — paired-coordinate lookup, not the 2×2 Cartesian block of
rows `{0,1}` × columns `{0,1}`. -/
theorem C5_paired_element_selection :
    Sparse.get_elements ⟨[1, 2, 3], [0, 1, 2], [0, 1, 2], 3, 3⟩ [0, 1] [0, 1] =
      .ok ⟨[1, 2], [0, 1], [0, 1], 3, 3⟩ :=
  rfl

/-- C10: whenever `_get_elements` succeeds, the returned matrix keeps
the original matrix's shape `(n_row, n_column)`; no compacted smaller
axis is derived. -/
theorem C10_elements_preserve_shape (s : Sparse) (i j : List Nat) (m : Sparse)
    (h : Sparse.get_elements s i j = .ok m) :
    m.n_row = s.n_row ∧ m.n_column = s.n_column := by
  unfold Sparse.get_elements at h
  obtain ⟨i', hi, h⟩ := except_bind_ok h
  obtain ⟨j', hj, h⟩ := except_bind_ok h
  obtain ⟨d, hd, h⟩ := except_bind_ok h
  cases h
  exact ⟨rfl, rfl⟩

/-- Witness for C10 at a concrete query. -/
theorem C10_elements_preserve_shape_witness :
    (⟨[1, 2], [0, 1], [0, 1], 3, 3⟩ : Sparse).n_row = 3 ∧
    (⟨[1, 2], [0, 1], [0, 1], 3, 3⟩ : Sparse).n_column = 3 :=
  C10_elements_preserve_shape ⟨[1, 2, 3], [0, 1, 2], [0, 1, 2], 3, 3⟩
    [0, 1] [0, 1] ⟨[1, 2], [0, 1], [0, 1], 3, 3⟩ rfl

/-- C8: constructing a matrix with validation from a triplet of equal
lengths whose coordinates are pairwise distinct and within shape bounds
produces a matrix whose id array is strictly ascending at every adjacent
pair. -/
theorem C8_construct_sort_invariant (d : List Int) (r c : List Nat)
    (n_row n_col : Nat)
    (_hlen1 : r.length = d.length) (_hlen2 : c.length = d.length)
    (hdist : List.Pairwise
      (fun e1 e2 : Entry => (e1.row, e1.column) ≠ (e2.row, e2.column))
      (zipEntries d r c))
    (hbound : ∀ e ∈ zipEntries d r c, e.row < n_row ∧ e.column < n_col) :
    List.Chain' (· < ·) (Sparse.init d r c n_row n_col).ids := by
  rw [ids_init]
  set k := entryId n_col with hk
  set entries := zipEntries d r c with hent
  have hperm := sortByKey_perm k entries
  have hsorted := sortByKey_sorted k entries
  have hkeys : List.Pairwise (fun e1 e2 => k e1 ≠ k e2) entries := by
    refine hdist.imp_of_mem ?_
    intro a b ha hb hne hkeq
    have hinj := ijToId_inj (hbound a ha).2 (hbound b hb).2 hkeq
    exact hne (by rw [Prod.mk.injEq]; exact hinj)
  have hkeys' : List.Pairwise (fun e1 e2 => k e1 ≠ k e2) (sortByKey k entries) := by
    have hnd : (entries.map k).Nodup := List.pairwise_map.mpr hkeys
    have hnd2 : ((sortByKey k entries).map k).Nodup :=
      ((hperm.map k).nodup_iff).mpr hnd
    exact List.pairwise_map.mp hnd2
  have hlt : List.Pairwise (fun e1 e2 => k e1 < k e2) (sortByKey k entries) :=
    (hsorted.and hkeys').imp (fun h => Nat.lt_of_le_of_ne h.1 h.2)
  exact (List.pairwise_map.mpr hlt).chain'

/-- Witness for C8: a concrete unsorted duplicate-free triplet. -/
theorem C8_construct_sort_invariant_witness :
    List.Chain' (· < ·) (Sparse.init [5, 7] [1, 0] [0, 1] 2 2).ids :=
  C8_construct_sort_invariant [5, 7] [1, 0] [0, 1] 2 2 rfl rfl
    (by decide) (by decide)

lemma natMax_def (a b : Nat) : Nat.max a b = if a ≤ b then b else a := Nat.max_def

lemma natMin_def (a b : Nat) : Nat.min a b = if a ≤ b then a else b := Nat.min_def

lemma npMax1_mem (x : Nat) (l : List Nat) : npMax1 x l ∈ x :: l := by
  induction l generalizing x with
  | nil => simp [npMax1]
  | cons y ys ih =>
    unfold npMax1
    rw [natMax_def]
    by_cases h : x ≤ npMax1 y ys
    · rw [if_pos h]
      rcases List.mem_cons.mp (ih y) with hm | hm
      · simp [hm]
      · simp [hm]
    · rw [if_neg h]
      simp

lemma npMax1_ge (x : Nat) (l : List Nat) : ∀ v ∈ x :: l, v ≤ npMax1 x l := by
  induction l generalizing x with
  | nil => intro v hv; simp at hv; simp [npMax1, hv]
  | cons y ys ih =>
    intro v hv
    unfold npMax1
    rw [natMax_def]
    by_cases h : x ≤ npMax1 y ys
    · rw [if_pos h]
      rcases List.mem_cons.mp hv with hv | hv
      · exact hv ▸ h
      · exact ih y v hv
    · rw [if_neg h]
      rcases List.mem_cons.mp hv with hv | hv
      · exact Nat.le_of_eq hv
      · exact Nat.le_trans (ih y v hv) (Nat.le_of_not_le h)

lemma npMin1_mem (x : Nat) (l : List Nat) : npMin1 x l ∈ x :: l := by
  induction l generalizing x with
  | nil => simp [npMin1]
  | cons y ys ih =>
    unfold npMin1
    rw [natMin_def]
    by_cases h : x ≤ npMin1 y ys
    · rw [if_pos h]
      simp
    · rw [if_neg h]
      rcases List.mem_cons.mp (ih y) with hm | hm
      · simp [hm]
      · simp [hm]

lemma npMin1_le (x : Nat) (l : List Nat) : ∀ v ∈ x :: l, npMin1 x l ≤ v := by
  induction l generalizing x with
  | nil => intro v hv; simp at hv; simp [npMin1, hv]
  | cons y ys ih =>
    intro v hv
    unfold npMin1
    rw [natMin_def]
    by_cases h : x ≤ npMin1 y ys
    · rw [if_pos h]
      rcases List.mem_cons.mp hv with hv | hv
      · exact Nat.le_of_eq hv.symm
      · exact Nat.le_trans h (ih y v hv)
    · rw [if_neg h]
      rcases List.mem_cons.mp hv with hv | hv
      · exact hv ▸ Nat.le_of_not_le h
      · exact ih y v hv

lemma normalize_indices_cons (a : Nat) (l : List Nat) (xmax : Nat) :
    normalize_indices (a :: l) xmax =
      if npMax1 a l < xmax then .ok (a :: l)
      else
        match (a :: l).filter (fun v => decide (xmax ≤ v)) with
        | [] => .error .emptyMax
        | b :: bs => .error (.bounds (npMin1 b bs) xmax) := rfl

lemma normalize_indices_ok {x : List Nat} {xmax : Nat} (hne : x ≠ [])
    (hall : ∀ v ∈ x, v < xmax) : normalize_indices x xmax = .ok x := by
  cases x with
  | nil => exact absurd rfl hne
  | cons a l =>
    have hmax : npMax1 a l < xmax := hall _ (npMax1_mem a l)
    rw [normalize_indices_cons, if_pos hmax]

/-- C9: whenever the normalized index array contains an index
`≥ xmax`, `_normalize_indices` fails with the bounds `ValueError`
carrying the minimal offending index value and the axis length
(`m ∈ x`, `xmax ≤ m`, and `m` below every offending index); and when
every index of a nonempty array is in range, no error of any kind is
raised — the bounds error is the only validated-input failure of the
normalization step. -/
theorem C9_normalize_bounds_error (x : List Nat) (xmax : Nat) :
    ((∃ v ∈ x, xmax ≤ v) →
      ∃ m, normalize_indices x xmax = .error (.bounds m xmax) ∧
        m ∈ x ∧ xmax ≤ m ∧ ∀ w ∈ x, xmax ≤ w → m ≤ w)
    ∧ ((∀ v ∈ x, v < xmax) → x ≠ [] → normalize_indices x xmax = .ok x) := by
  constructor
  · rintro ⟨v, hv, hvx⟩
    cases x with
    | nil => cases hv
    | cons a l =>
      have hmax : ¬ npMax1 a l < xmax :=
        Nat.not_lt.mpr (Nat.le_trans hvx (npMax1_ge a l v hv))
      have hvf : v ∈ (a :: l).filter (fun w => decide (xmax ≤ w)) :=
        List.mem_filter.mpr ⟨hv, by simpa using hvx⟩
      cases hf : (a :: l).filter (fun w => decide (xmax ≤ w)) with
      | nil => rw [hf] at hvf; cases hvf
      | cons b bs =>
        refine ⟨npMin1 b bs, ?_, ?_, ?_, ?_⟩
        · rw [normalize_indices_cons, if_neg hmax, hf]
        · have hm : npMin1 b bs ∈ (a :: l).filter (fun w => decide (xmax ≤ w)) :=
            hf ▸ npMin1_mem b bs
          exact (List.mem_filter.mp hm).1
        · have hm : npMin1 b bs ∈ (a :: l).filter (fun w => decide (xmax ≤ w)) :=
            hf ▸ npMin1_mem b bs
          simpa using (List.mem_filter.mp hm).2
        · intro w hw hxw
          have hwf : w ∈ (a :: l).filter (fun u => decide (xmax ≤ u)) :=
            List.mem_filter.mpr ⟨hw, by simpa using hxw⟩
          rw [hf] at hwf
          exact npMin1_le b bs w hwf
  · intro hall hne
    exact normalize_indices_ok hne hall

/-- Witness for C9: index 4 (the minimal offending value among
`{5, 4}`) is reported against axis length 3, and the in-range array
passes. -/
theorem C9_normalize_bounds_error_witness :
    normalize_indices [5, 1, 4] 3 = .error (.bounds 4 3) ∧
    normalize_indices [0, 2] 3 = .ok [0, 2] := by
  constructor
  · obtain ⟨m, he, hm, hge, hmin⟩ :=
      (C9_normalize_bounds_error [5, 1, 4] 3).1 ⟨5, by decide, by decide⟩
    have h4 : m ≤ 4 := hmin 4 (by decide) (by decide)
    have hm4 : m = 4 := by
      rcases List.mem_cons.mp hm with h | h
      · omega
      · rcases List.mem_cons.mp h with h | h
        · omega
        · rcases List.mem_cons.mp h with h | h
          · omega
          · cases h
    rw [hm4] at he
    exact he
  · exact (C9_normalize_bounds_error [0, 2] 3).2 (by decide) (by decide)

lemma quarter_lt_left (b q : Int) : ((b : Rat) - 1/4 < (q : Rat)) ↔ b ≤ q := by
  constructor
  · intro h
    by_contra hq
    push_neg at hq
    have hq1 : q + 1 ≤ b := hq
    have hq2 : ((q : Rat) + 1) ≤ (b : Rat) := by exact_mod_cast hq1
    linarith
  · intro h
    have h2 : (b : Rat) ≤ (q : Rat) := by exact_mod_cast h
    linarith

lemma quarter_lt_right (b q : Int) : ((b : Rat) + 1/4 < (q : Rat)) ↔ b < q := by
  constructor
  · intro h
    by_contra hq
    push_neg at hq
    have hq2 : (q : Rat) ≤ (b : Rat) := by exact_mod_cast hq
    linarith
  · intro h
    have h1 : b + 1 ≤ q := h
    have h2 : ((b : Rat) + 1) ≤ (q : Rat) := by exact_mod_cast h1
    linarith

lemma fast_in1d_count (q : Int) (bins : List Int)
    (hs : List.Pairwise (· < ·) bins) :
    (bins.flatMap fun b => [(b : Rat) - 1/4, (b : Rat) + 1/4]).countP
        (fun x => decide (x < (q : Rat))) % 2 =
      if q ∈ bins then 1 else 0 := by
  induction bins with
  | nil => simp
  | cons b rest ih =>
    obtain ⟨hb, htail⟩ := List.pairwise_cons.mp hs
    have hcnt := ih htail
    rw [List.flatMap_cons, List.countP_append]
    simp only [List.countP_cons, List.countP_nil, decide_eq_true_eq,
      quarter_lt_left, quarter_lt_right]
    rcases lt_trichotomy b q with hlt | heq | hgt
    · have h1 : b ≤ q := Int.le_of_lt hlt
      rw [if_pos h1, if_pos hlt]
      by_cases hm : q ∈ rest
      · rw [if_pos hm] at hcnt
        rw [if_pos (List.mem_cons_of_mem b hm)]
        omega
      · rw [if_neg hm] at hcnt
        have hm2 : q ∉ b :: rest := by
          intro hc
          rcases List.mem_cons.mp hc with hc | hc
          · exact absurd hc.symm (Int.ne_of_lt hlt)
          · exact hm hc
        rw [if_neg hm2]
        omega
    · subst heq
      rw [if_pos (Int.le_refl b), if_neg (lt_irrefl b)]
      have hm : b ∉ rest := fun hc => lt_irrefl b (hb b hc)
      rw [if_neg hm] at hcnt
      rw [if_pos (List.mem_cons_self b rest)]
      omega
    · rw [if_neg (Int.not_le.mpr hgt), if_neg (Int.lt_asymm hgt)]
      have hm : q ∉ rest := by
        intro hc
        have := hb q hc
        omega
      have hm2 : q ∉ b :: rest := by
        intro hc
        rcases List.mem_cons.mp hc with hc | hc
        · omega
        · exact hm hc
      rw [if_neg hm] at hcnt
      rw [if_neg hm2]
      omega

/-- C7: over strictly ascending integer `bins`, `fast_in1d` reports
`True` for a query exactly when the query equals some element of
`bins`. -/
theorem C7_fast_in1d_membership (bins : List Int)
    (hs : List.Pairwise (· < ·) bins) (qs : List Int) :
    fast_in1d qs bins = qs.map (fun q => decide (q ∈ bins)) := by
  have hone : ∀ q : Int,
      decide (searchsorted
        (bins.flatMap fun b => [(b : Rat) - 1/4, (b : Rat) + 1/4])
        (q : Rat) % 2 > 0) = decide (q ∈ bins) := by
    intro q
    rw [decide_eq_decide]
    unfold searchsorted
    rw [fast_in1d_count q bins hs]
    by_cases hm : q ∈ bins
    · simp [hm]
    · simp [hm]
  unfold fast_in1d
  induction qs with
  | nil => rfl
  | cons q rest ih =>
    simp only [List.map_cons]
    rw [ih, hone q]

/-- Witness for C7: the spec's example, bins `[2,5,9]` and queries
`[2,3,5,9,10]`. -/
theorem C7_fast_in1d_membership_witness :
    fast_in1d [2, 3, 5, 9, 10] [2, 5, 9] = [true, false, true, true, false] := by
  rw [C7_fast_in1d_membership [2, 5, 9] (by decide) [2, 3, 5, 9, 10]]
  rfl

lemma except_ok_bind {ε α β : Type} (a : α) (f : α → Except ε β) :
    (Except.ok a >>= f) = f a := rfl

lemma mem_insertUnique (x y : Nat) (l : List Nat) :
    x ∈ insertUnique y l ↔ x = y ∨ x ∈ l := by
  induction l with
  | nil => simp [insertUnique]
  | cons z zs ih =>
    unfold insertUnique
    by_cases h1 : y < z
    · rw [if_pos h1]
      simp [List.mem_cons]
    · rw [if_neg h1]
      by_cases h2 : y = z
      · rw [if_pos h2]
        subst h2
        simp [List.mem_cons]
      · rw [if_neg h2]
        simp only [List.mem_cons, ih]
        tauto

lemma pairwise_insertUnique (y : Nat) {l : List Nat}
    (h : List.Pairwise (· < ·) l) :
    List.Pairwise (· < ·) (insertUnique y l) := by
  induction l with
  | nil => simp [insertUnique]
  | cons z zs ih =>
    obtain ⟨hz, htail⟩ := List.pairwise_cons.mp h
    unfold insertUnique
    by_cases h1 : y < z
    · rw [if_pos h1]
      refine List.pairwise_cons.mpr ⟨?_, h⟩
      intro a ha
      rcases List.mem_cons.mp ha with ha | ha
      · omega
      · have := hz a ha
        omega
    · rw [if_neg h1]
      by_cases h2 : y = z
      · rw [if_pos h2]
        exact h
      · rw [if_neg h2]
        refine List.pairwise_cons.mpr ⟨?_, ih htail⟩
        intro a ha
        rcases (mem_insertUnique a y zs).mp ha with ha | ha
        · omega
        · exact hz a ha

lemma mem_unique (x : Nat) (l : List Nat) : x ∈ unique l ↔ x ∈ l := by
  induction l with
  | nil => simp [unique]
  | cons z zs ih =>
    show x ∈ insertUnique z (unique zs) ↔ _
    rw [mem_insertUnique]
    simp only [List.mem_cons, ih]

lemma pairwise_unique (l : List Nat) : List.Pairwise (· < ·) (unique l) := by
  induction l with
  | nil => simp [unique]
  | cons z zs ih =>
    show List.Pairwise (· < ·) (insertUnique z (unique zs))
    exact pairwise_insertUnique z ih

lemma sorted_eq_of_mem :
    ∀ (l1 l2 : List Nat), List.Pairwise (· < ·) l1 → List.Pairwise (· < ·) l2 →
      (∀ x, x ∈ l1 ↔ x ∈ l2) → l1 = l2
  | [], [], _, _, _ => rfl
  | [], b :: t2, _, _, hm =>
    absurd ((hm b).mpr (List.mem_cons_self b t2)) (List.not_mem_nil b)
  | a :: t1, [], _, _, hm =>
    absurd ((hm a).mp (List.mem_cons_self a t1)) (List.not_mem_nil a)
  | a :: t1, b :: t2, h1, h2, hm => by
    obtain ⟨ha, h1t⟩ := List.pairwise_cons.mp h1
    obtain ⟨hb, h2t⟩ := List.pairwise_cons.mp h2
    have hab : a = b := by
      have hma := (hm a).mp (List.mem_cons_self a t1)
      have hmb := (hm b).mpr (List.mem_cons_self b t2)
      rcases List.mem_cons.mp hma with h | h
      · exact h
      · rcases List.mem_cons.mp hmb with h' | h'
        · exact h'.symm
        · have hba := hb a h
          have hab' := ha b h'
          omega
    subst hab
    have hmt : ∀ x, x ∈ t1 ↔ x ∈ t2 := by
      intro x
      constructor
      · intro hx
        have hax := ha x hx
        rcases List.mem_cons.mp ((hm x).mp (List.mem_cons_of_mem a hx)) with h | h
        · omega
        · exact h
      · intro hx
        have hbx := hb x hx
        rcases List.mem_cons.mp ((hm x).mpr (List.mem_cons_of_mem a hx)) with h | h
        · omega
        · exact h
    rw [sorted_eq_of_mem t1 t2 h1t h2t hmt]

lemma countP_lt_range (n c : Nat) (h : c ≤ n) :
    (List.range n).countP (fun x => decide (x < c)) = c := by
  induction n with
  | zero =>
    simp only [List.range_zero, List.countP_nil]
    omega
  | succ k ih =>
    rw [List.range_succ, List.countP_append]
    by_cases hc : c ≤ k
    · rw [ih hc]
      have hkc : ¬ (k < c) := by omega
      simp [List.countP_cons, hkc]
    · have hck : c = k + 1 := by omega
      subst hck
      have hall : (List.range k).countP (fun x => decide (x < k + 1)) =
          (List.range k).length :=
        List.countP_eq_length.mpr
          (fun a ha => by simpa using Nat.lt_succ_of_lt (List.mem_range.mp ha))
      rw [hall, List.length_range]
      have hk1 : k < k + 1 := Nat.lt_succ_self k
      simp [List.countP_cons, hk1]

lemma maskFilter_true {α : Type} :
    ∀ (l : List α) (k : Nat), l.length ≤ k →
      maskFilter l (List.replicate k true) = l
  | [], _, _ => rfl
  | x :: xs, k + 1, h => by
    show maskFilter (x :: xs) (true :: List.replicate k true) = x :: xs
    unfold maskFilter
    simp only [List.zip_cons_cons, List.filter_cons_of_pos]
    have := maskFilter_true xs k (by simpa using h)
    unfold maskFilter at this
    simp only [List.map_cons, this]

lemma allDiffPos_of_pairwise {l : List Nat}
    (h : List.Pairwise (· < ·) l) : allDiffPos l = true := by
  induction l with
  | nil => rfl
  | cons x xs ih =>
    cases xs with
    | nil => rfl
    | cons y ys =>
      obtain ⟨hx, ht⟩ := List.pairwise_cons.mp h
      show (decide (x < y) && allDiffPos (y :: ys)) = true
      rw [ih ht]
      simp [hx y (List.mem_cons_self y ys)]

lemma mask_all_true (n : Nat) :
    ∀ (rs cs : List Nat), (∀ c ∈ cs, c < n) →
      in1d ((List.zipWith (fun r c => ijToId n r c) rs cs).map (fun x => x % n))
          (List.range n) =
        List.replicate (List.zipWith (fun r c => ijToId n r c) rs cs).length true := by
  intro rs
  induction rs with
  | nil => intro cs _; rfl
  | cons r rs2 ih =>
    intro cs hc
    cases cs with
    | nil => rfl
    | cons c cs2 =>
      have hcn : c < n := hc c (List.mem_cons_self c cs2)
      have hmod : ijToId n r c % n = c := Nat.mul_add_mod_of_lt hcn
      have htail := ih cs2 (fun u hu => hc u (List.mem_cons_of_mem c hu))
      unfold in1d at htail ⊢
      simp only [List.zipWith_cons_cons, List.map_cons, List.length_cons,
        List.replicate_succ, hmod]
      rw [htail]
      have hcmem : c ∈ List.range n := List.mem_range.mpr hcn
      simp [hcmem]

lemma map_eq_self {α : Type} (f : α → α) (l : List α) (h : ∀ x ∈ l, f x = x) :
    l.map f = l := by
  induction l with
  | nil => rfl
  | cons x xs ih =>
    rw [List.map_cons, h x (List.mem_cons_self x xs),
      ih (fun y hy => h y (List.mem_cons_of_mem x hy))]

lemma zipEntries_map_key (n : Nat) (d : List Int) :
    ∀ (rs cs : List Nat), rs.length = d.length → cs.length = d.length →
      (zipEntries d rs cs).map (entryId n) =
        List.zipWith (fun r c => ijToId n r c) rs cs := by
  induction d with
  | nil =>
    intro rs cs h1 h2
    rw [List.eq_nil_of_length_eq_zero h1, List.eq_nil_of_length_eq_zero h2]
    rfl
  | cons x ds ih =>
    intro rs cs h1 h2
    cases rs with
    | nil => simp at h1
    | cons r rs2 =>
      cases cs with
      | nil => simp at h2
      | cons c cs2 =>
        show entryId n ⟨x, r, c⟩ :: (zipEntries ds rs2 cs2).map (entryId n) =
          ijToId n r c :: List.zipWith (fun a b => ijToId n a b) rs2 cs2
        rw [ih rs2 cs2 (by simpa using h1) (by simpa using h2)]
        rfl

lemma zipEntries_maps (d : List Int) :
    ∀ (rs cs : List Nat), rs.length = d.length → cs.length = d.length →
      (zipEntries d rs cs).map Entry.data = d ∧
      (zipEntries d rs cs).map Entry.row = rs ∧
      (zipEntries d rs cs).map Entry.column = cs := by
  induction d with
  | nil =>
    intro rs cs h1 h2
    rw [List.eq_nil_of_length_eq_zero h1, List.eq_nil_of_length_eq_zero h2]
    exact ⟨rfl, rfl, rfl⟩
  | cons x ds ih =>
    intro rs cs h1 h2
    cases rs with
    | nil => simp at h1
    | cons r rs2 =>
      cases cs with
      | nil => simp at h2
      | cons c cs2 =>
        obtain ⟨e1, e2, e3⟩ := ih rs2 cs2 (by simpa using h1) (by simpa using h2)
        refine ⟨?_, ?_, ?_⟩
        · show x :: (zipEntries ds rs2 cs2).map Entry.data = x :: ds
          rw [e1]
        · show r :: (zipEntries ds rs2 cs2).map Entry.row = r :: rs2
          rw [e2]
        · show c :: (zipEntries ds rs2 cs2).map Entry.column = c :: cs2
          rw [e3]

lemma init_of_sorted (d : List Int) (rs cs : List Nat) (m n : Nat)
    (h1 : rs.length = d.length) (h2 : cs.length = d.length)
    (hsort : List.Pairwise (· ≤ ·)
      (List.zipWith (fun r c => ijToId n r c) rs cs)) :
    Sparse.init d rs cs m n = ⟨d, rs, cs, m, n⟩ := by
  have hkeys : List.Pairwise (fun a b => entryId n a ≤ entryId n b)
      (zipEntries d rs cs) := by
    have hmk := zipEntries_map_key n d rs cs h1 h2
    have hp : List.Pairwise (· ≤ ·) ((zipEntries d rs cs).map (entryId n)) := by
      rw [hmk]
      exact hsort
    exact List.pairwise_map.mp hp
  obtain ⟨e1, e2, e3⟩ := zipEntries_maps d rs cs h1 h2
  unfold Sparse.init
  simp only [sortByKey_of_sorted hkeys, e1, e2, e3]

/-- C6 is false as stated: `_get_columns` returns shape
`(len(j), n_column)`, so selecting all columns of the 2×3 matrix
`{(0,0) ↦ 1}` yields a matrix of shape `(3,3)`, not one equal to the
original. -/
theorem C6_full_column_roundtrip_cex :
    ¬ (Sparse.get_columns ⟨[1], [0], [0], 2, 3⟩ (List.range 3) =
        .ok ⟨[1], [0], [0], 2, 3⟩) := by
  intro h
  have h2 : Sparse.get_columns ⟨[1], [0], [0], 2, 3⟩ (List.range 3) =
      .ok ⟨[1], [0], [0], 3, 3⟩ := rfl
  rw [h2] at h
  cases h

/-- C6 (amended): for every matrix `A` with at least one column
(satisfying the representation invariants: parallel arrays of equal
length, columns within bounds, strictly ascending ids), selecting all
columns `j = [0, …, n_column-1]` returns a matrix with exactly `A`'s
stored values, rows and columns, but with shape
`(n_column, n_column)`; it equals `A` precisely when
`n_row = n_column`. -/
theorem C6_full_column_roundtrip (s : Sparse)
    (hn : 0 < s.n_column)
    (hlen1 : s.row.length = s.data.length)
    (hlen2 : s.column.length = s.data.length)
    (hcol : ∀ c ∈ s.column, c < s.n_column)
    (hsorted : List.Pairwise (· < ·) s.ids) :
    Sparse.get_columns s (List.range s.n_column) =
      .ok ⟨s.data, s.row, s.column, s.n_column, s.n_column⟩ := by
  obtain ⟨d, rs, cs, m, n⟩ := s
  simp only [Sparse.ids] at hsorted
  simp only at hn hlen1 hlen2 hcol hsorted
  have hjn : normalize_indices (List.range n) n = .ok (List.range n) :=
    normalize_indices_ok (by simp [List.range_eq_nil]; omega)
      (fun v hv => List.mem_range.mp hv)
  unfold Sparse.get_columns
  simp only [hjn, except_ok_bind]
  rw [if_pos (allDiffPos_of_pairwise (List.pairwise_lt_range n))]
  have hzl : (List.zipWith (fun r c => ijToId n r c) rs cs).length = d.length := by
    rw [List.length_zipWith, hlen1, hlen2]
    exact Nat.min_self d.length
  have hmask : in1d ((List.zipWith (fun r c => ijToId n r c) rs cs).map
      (fun x => x % n)) (List.range n) = List.replicate d.length true := by
    rw [mask_all_true n rs cs hcol, hzl]
  simp only [Sparse.ids, hmask]
  rw [maskFilter_true d d.length (Nat.le_refl d.length),
    maskFilter_true rs d.length (Nat.le_of_eq hlen1),
    maskFilter_true cs d.length (Nat.le_of_eq hlen2)]
  have hrel : unique (cs ++ (List.range n).filter (fun c => decide (c ∉ cs))) =
      List.range n := by
    refine sorted_eq_of_mem _ _ (pairwise_unique _) (List.pairwise_lt_range n) ?_
    intro x
    rw [mem_unique]
    simp only [List.mem_append, List.mem_filter, List.mem_range,
      decide_eq_true_eq]
    constructor
    · rintro (hx | hx)
      · exact hcol x hx
      · exact hx.1
    · intro hx
      by_cases hxc : x ∈ cs
      · exact Or.inl hxc
      · exact Or.inr ⟨hx, hxc⟩
  rw [hrel]
  have hmap : cs.map (searchsorted (List.range n)) = cs :=
    map_eq_self _ _ (fun c hc => countP_lt_range n c (Nat.le_of_lt (hcol c hc)))
  rw [hmap, List.length_range]
  rw [init_of_sorted d rs cs n n hlen1 hlen2
    (hsorted.imp (fun h => Nat.le_of_lt h))]
  rfl

/-- Witness for C6 at the concrete 2×3 matrix `{(0,0) ↦ 1}`. -/
theorem C6_full_column_roundtrip_witness :
    Sparse.get_columns ⟨[1], [0], [0], 2, 3⟩ (List.range 3) =
      .ok ⟨[1], [0], [0], 3, 3⟩ :=
  C6_full_column_roundtrip ⟨[1], [0], [0], 2, 3⟩ (by decide) rfl rfl
    (by decide) (by decide)

end SparseSpec
